import Mathlib

/-!
Verification development for the ChaCha stream-cipher engine of this
repository (header `chacha.h`: classes `ChaCha_Info`, `ChaCha_Policy`,
`ChaCha`, `ChaChaTLS_Info`, `ChaChaTLS_Policy`, `ChaChaTLS`).

The repository ships only the declarations; the engine bodies
(`CipherSetKey`, `OperateKeystream`, `CipherResynchronize`,
`SeekToIteration`, the quarter-round and block function) live in a
translation unit that is not part of the sources at hand.  Those parts
are therefore modelled from the specification, as flagged on each
definition; the key/nonce length tables, the round constants and the
`m_rounds(0)` constructor initialisation are taken from the header.

Machine words are 32-bit and embedded as `Nat` reduced modulo `2^32`
where the code wraps; byte strings are `List Nat` with entries below 256.
-/

namespace ChaCha

/-- The 32-bit word modulus `2^32`. -/
def W32 : Nat := 4294967296

/-- The 64-bit modulus `2^64`, the Classic layout's block-counter range. -/
def W64 : Nat := 18446744073709551616

/-- Addition of two 32-bit words, wrapping modulo `2^32`. -/
def add32 (a b : Nat) : Nat := (a + b) % W32

/-- Modelled from the spec: left rotation of a 32-bit word by `n` bits,
in arithmetic form: the low `32 - n` bits move up by `n` places and the
high `n` bits drop to the bottom. -/
def rotl32 (x n : Nat) : Nat := (x * 2 ^ n + x / 2 ^ (32 - n)) % W32

/-- Modelled from the spec (§4.1): the quarter-round primitive on four
32-bit words, the sequence
`a += b; d ^= a; d <<<= 16; c += d; b ^= c; b <<<= 12;
 a += b; d ^= a; d <<<= 8;  c += d; b ^= c; b <<<= 7`
with wrapping addition. -/
def quarterRound : Nat × Nat × Nat × Nat → Nat × Nat × Nat × Nat :=
  fun (a, b, c, d) =>
    let a1 := add32 a b
    let d1 := rotl32 (d ^^^ a1) 16
    let c1 := add32 c d1
    let b1 := rotl32 (b ^^^ c1) 12
    let a2 := add32 a1 b1
    let d2 := rotl32 (d1 ^^^ a2) 8
    let c2 := add32 c1 d2
    let b2 := rotl32 (b1 ^^^ c2) 7
    (a2, b2, c2, d2)

/-- Apply the quarter round to positions `i j k l` of a 16-word state,
leaving every other word in place. -/
def applyQR (s : List Nat) (i j k l : Nat) : List Nat :=
  let q := quarterRound (s.getD i 0, s.getD j 0, s.getD k 0, s.getD l 0)
  (((s.set i q.1).set j q.2.1).set k q.2.2.1).set l q.2.2.2

/-- Modelled from the spec (§4.2): quarter rounds over the four columns
of the 4×4 state. -/
def columnRound (s : List Nat) : List Nat :=
  applyQR (applyQR (applyQR (applyQR s 0 4 8 12) 1 5 9 13) 2 6 10 14) 3 7 11 15

/-- Modelled from the spec (§4.2): quarter rounds over the four
diagonals of the 4×4 state. -/
def diagonalRound (s : List Nat) : List Nat :=
  applyQR (applyQR (applyQR (applyQR s 0 5 10 15) 1 6 11 12) 2 7 8 13) 3 4 9 14

/-- Modelled from the spec (§4.2): one double round — columns, then
diagonals. -/
def doubleRound (s : List Nat) : List Nat := diagonalRound (columnRound s)

/-- Iterate the double round `n` times. -/
def iterDR : Nat → List Nat → List Nat
  | 0, s => s
  | n + 1, s => iterDR n (doubleRound s)

/-- Little-endian serialisation of one 32-bit word into four bytes. -/
def wordLE (w : Nat) : List Nat :=
  [w % 256, w / 256 % 256, w / 65536 % 256, w / 16777216 % 256]

/-- Little-endian serialisation of a word list into bytes. -/
def serialize (s : List Nat) : List Nat := (s.map wordLE).flatten

/-- Modelled from the spec (§4.3): the ChaCha block function for round
count `r` — run `r / 2` double rounds on a copy of the state, add the
original state back word-wise modulo `2^32`, serialise little-endian. -/
def blockFunc (r : Nat) (s : List Nat) : List Nat :=
  serialize (List.zipWith add32 (iterDR (r / 2) s) s)

/-- The four layout-independent constant words, the ASCII string
`expand 32-byte k` read as four little-endian words. -/
def chachaConstants : List Nat := [1634760805, 857760878, 2036477234, 1797285236]

/-- The little-endian 32-bit word starting at byte `4*i` of a byte
string (absent bytes read as zero). -/
def word32At (bs : List Nat) (i : Nat) : Nat :=
  bs.getD (4 * i) 0 + 256 * bs.getD (4 * i + 1) 0 +
    65536 * bs.getD (4 * i + 2) 0 + 16777216 * bs.getD (4 * i + 3) 0

/-- Modelled from the spec (§3): the eight key words of rows 1–2.  A
32-byte key fills them directly; a 16-byte key (Classic only) is
duplicated across both rows. -/
def keyWords (key : List Nat) : List Nat :=
  let ex := if key.length = 16 then key ++ key else key
  [word32At ex 0, word32At ex 1, word32At ex 2, word32At ex 3,
   word32At ex 4, word32At ex 5, word32At ex 6, word32At ex 7]

/-- Modelled from the spec (§3, Classic): row 3 — 64-bit block counter
split little-endian into words 12–13, 8-byte nonce in words 14–15. -/
def classicRow3 (ctr : Nat) (nonce : List Nat) : List Nat :=
  [ctr % W32, ctr / W32 % W32, word32At nonce 0, word32At nonce 1]

/-- Modelled from the spec (§3, TLS): row 3 — 32-bit block counter in
word 12, 12-byte nonce in words 13–15. -/
def tlsRow3 (ctr : Nat) (nonce : List Nat) : List Nat :=
  [ctr % W32, word32At nonce 0, word32At nonce 1, word32At nonce 2]

/-- Modelled from the spec (§4.4): the initial 16-word state matrix in
the Classic (Bernstein) layout. -/
def classicState (key nonce : List Nat) (ctr : Nat) : List Nat :=
  chachaConstants ++ keyWords key ++ classicRow3 ctr nonce

/-- Modelled from the spec (§4.4): the initial 16-word state matrix in
the TLS (RFC 8439) layout. -/
def tlsState (key nonce : List Nat) (ctr : Nat) : List Nat :=
  chachaConstants ++ keyWords key ++ tlsRow3 ctr nonce

/-- The 64-byte keystream block of the Classic layout at block
counter `c`. -/
def classicBlock (r : Nat) (key nonce : List Nat) (c : Nat) : List Nat :=
  blockFunc r (classicState key nonce c)

/-- The 64-byte keystream block of the TLS layout at block counter `c`
(rounds fixed at 20 by `ChaChaTLS_Info`). -/
def tlsBlock (key nonce : List Nat) (c : Nat) : List Nat :=
  blockFunc 20 (tlsState key nonce c)

/-!  The keystream cursor (spec §4.5), generic in the counter modulus
`W` (`2^64` Classic, `2^32` TLS) and in the block generator
`blk : Nat → List Nat` mapping a counter value to a 64-byte block. -/

/-- Modelled from the spec (§4.5): cursor state — the counter word(s)
currently held in the state matrix, the byte offset inside the current
block, and the buffered block (`none` is the Fresh state). -/
structure Cursor where
  ctr : Nat
  off : Nat
  buf : Option (List Nat)
deriving Repr, DecidableEq

/-- Modelled from the spec (§4.5): deliver one keystream byte.  In the
Fresh state the block for the current counter is generated, the counter
word is incremented modulo `W`, and the byte at the pending in-block
offset is delivered; in the Buffered state the byte comes from the
buffer.  Crossing a block boundary returns to Fresh. -/
def nextByte (W : Nat) (blk : Nat → List Nat) (s : Cursor) : Nat × Cursor :=
  match s.buf with
  | none =>
      let b := blk s.ctr
      (b.getD s.off 0,
        if s.off + 1 = 64 then ⟨(s.ctr + 1) % W, 0, none⟩
        else ⟨(s.ctr + 1) % W, s.off + 1, some b⟩)
  | some b =>
      (b.getD s.off 0,
        if s.off + 1 = 64 then ⟨s.ctr, 0, none⟩
        else ⟨s.ctr, s.off + 1, some b⟩)

/-- Deliver `n` keystream bytes, advancing the cursor. -/
def nextBytes (W : Nat) (blk : Nat → List Nat) : Nat → Cursor → List Nat × Cursor
  | 0, s => ([], s)
  | n + 1, s =>
      let r := nextByte W blk s
      let t := nextBytes W blk n r.2
      (r.1 :: t.1, t.2)

/-- Modelled from the spec (§4.5): `seek` to absolute byte offset `o`
with initial block counter `ic` — write block index `ic + o / 64`
(reduced modulo the counter width `W`) into the counter word(s), record
the in-block offset `o % 64`, and mark the cursor Fresh. -/
def seekTo (W ic o : Nat) : Cursor := ⟨(ic + o / 64) % W, o % 64, none⟩

/-- The cursor immediately after keying with initial block counter
`ic`: positioned at absolute offset 0. -/
def initCursor (W ic : Nat) : Cursor := ⟨ic % W, 0, none⟩

/-- The mathematically pure keystream byte at absolute offset `k`: byte
`k % 64` of the block whose counter is `ic + k / 64`, reduced modulo the
counter width. -/
def ksByte (W ic : Nat) (blk : Nat → List Nat) (k : Nat) : Nat :=
  (blk ((ic + k / 64) % W)).getD (k % 64) 0

/-- A cursor operation: read `n` bytes, or seek to absolute offset `o`. -/
inductive Op where
  | read (n : Nat)
  | seek (o : Nat)

/-- Run a list of cursor operations from position `p` and cursor `s`,
tagging every delivered keystream byte with the absolute byte offset it
was delivered for. -/
def runOps (W ic : Nat) (blk : Nat → List Nat) :
    List Op → Nat → Cursor → List (Nat × Nat)
  | [], _, _ => []
  | Op.read n :: rest, p, s =>
      let r := nextBytes W blk n s
      List.zip (List.range' p n) r.1 ++ runOps W ic blk rest (p + n) r.2
  | Op.seek o :: rest, _, _ => runOps W ic blk rest o (seekTo W ic o)

/-- The cursor `s` is positioned at absolute byte offset `p`: its
in-block offset is `p % 64`, and its counter word holds the block index
of `p` (one past it when a buffered block is pending, the buffer then
being exactly that block). -/
def Aligned (W ic : Nat) (blk : Nat → List Nat) (p : Nat) (s : Cursor) : Prop :=
  s.off = p % 64 ∧
    match s.buf with
    | none => s.ctr = (ic + p / 64) % W
    | some b => s.ctr = (ic + p / 64 + 1) % W ∧ b = blk ((ic + p / 64) % W)

/-!  Keying validation (lengths from the header: `ChaCha_Info` derives
`VariableKeyLength<32, 16, 32, 16, UNIQUE_IV, 8>`, so Classic keys are
16 or 32 bytes with an 8-byte IV; `ChaChaTLS_Info` derives
`FixedKeyLength<32, UNIQUE_IV, 12>`, so TLS keys are exactly 32 bytes
with a 12-byte IV). -/

/-- The keying-time failures of the spec's error taxonomy (§7). -/
inductive KeyingError where
  | InvalidKeyLength
  | InvalidNonceLength
deriving Repr, DecidableEq

/-- From the header: `ChaCha_Info`'s valid key lengths, 16 or 32 bytes. -/
def classicValidKeyLength (n : Nat) : Bool := n == 16 || n == 32

/-- From the header: `ChaChaTLS_Info`'s only valid key length, 32 bytes. -/
def tlsValidKeyLength (n : Nat) : Bool := n == 32

/-- From the header: `ChaCha_Info`'s IV length, exactly 8 bytes. -/
def classicValidIVLength (n : Nat) : Bool := n == 8

/-- From the header: `ChaChaTLS_Info`'s IV length, exactly 12 bytes. -/
def tlsValidIVLength (n : Nat) : Bool := n == 12

/-- Modelled from the spec (§4.4, §7): Classic keying — reject a bad
key length with `InvalidKeyLength`, a bad nonce length with
`InvalidNonceLength`, both synchronously and before any state (hence
any keystream) is produced; otherwise build the initial matrix. -/
def classicKeyAndIV (key nonce : List Nat) (ctr : Nat) :
    Except KeyingError (List Nat) :=
  if ¬ classicValidKeyLength key.length then .error .InvalidKeyLength
  else if ¬ classicValidIVLength nonce.length then .error .InvalidNonceLength
  else .ok (classicState key nonce ctr)

/-- Modelled from the spec (§4.4, §7): TLS keying with the same error
discipline as `classicKeyAndIV`. -/
def tlsKeyAndIV (key nonce : List Nat) (ctr : Nat) :
    Except KeyingError (List Nat) :=
  if ¬ tlsValidKeyLength key.length then .error .InvalidKeyLength
  else if ¬ tlsValidIVLength nonce.length then .error .InvalidNonceLength
  else .ok (tlsState key nonce ctr)

/-!  Resynchronization (spec §4.4): re-run only the nonce/counter part
of the scheduler, leaving words 0–11 (constants and key) untouched. -/

/-- Modelled from the spec (§4.4): Classic `CipherResynchronize` —
replace row 3 of an existing matrix with the new counter and nonce. -/
def classicResync (s : List Nat) (nonce : List Nat) (ctr : Nat) : List Nat :=
  s.take 12 ++ classicRow3 ctr nonce

/-- Modelled from the spec (§4.4): TLS `CipherResynchronize` — replace
row 3 of an existing matrix with the new counter and nonce. -/
def tlsResync (s : List Nat) (nonce : List Nat) (ctr : Nat) : List Nat :=
  s.take 12 ++ tlsRow3 ctr nonce

/-!  The XOR combiner (spec §4.6). -/

/-- Modelled from the spec (§4.6): `process` — draw as many keystream
bytes as the input is long and XOR them in byte-wise, advancing the
cursor. -/
def process (W : Nat) (blk : Nat → List Nat) (s : Cursor) (input : List Nat) :
    List Nat × Cursor :=
  let r := nextBytes W blk input.length s
  (List.zipWith (fun x k => x ^^^ k) input r.1, r.2)

/-- Classic encryption starting at absolute byte offset `o` (cursor
seeked there), returning the transformed bytes. -/
def classicProcess (r : Nat) (key nonce : List Nat) (ic o : Nat)
    (input : List Nat) : List Nat :=
  (process W64 (classicBlock r key nonce) (seekTo W64 ic o) input).1

/-- From the header: `ChaCha::Decryption` is a typedef of
`ChaCha::Encryption` — decryption is the very same operation. -/
def classicDecryptProcess := classicProcess

/-- TLS encryption starting at absolute byte offset `o`. -/
def tlsProcess (key nonce : List Nat) (ic o : Nat) (input : List Nat) : List Nat :=
  (process W32 (tlsBlock key nonce) (seekTo W32 ic o) input).1

/-- From the header: `ChaChaTLS::Decryption` is a typedef of
`ChaChaTLS::Encryption`. -/
def tlsDecryptProcess := tlsProcess

/-!  The cipher-level machine (spec §9 recommends deriving the matrix
from a layout tag plus key/nonce/counter components; the layout tag is
fixed at construction). -/

/-- The wire layout, chosen at construction and immutable. -/
inductive Layout where
  | classic
  | tls
deriving Repr, DecidableEq

/-- A cipher instance: the layout tag fixed at construction, the round
count, and the keying components the state matrix is derived from. -/
structure CipherM where
  layout : Layout
  rounds : Nat
  keyBytes : List Nat
  nonceBytes : List Nat
  ctr : Nat
deriving Repr, DecidableEq

/-- The 16-word state matrix of a cipher instance, derived from its
layout and keying components. -/
def matrixOf (m : CipherM) : List Nat :=
  match m.layout with
  | .classic => classicState m.keyBytes m.nonceBytes m.ctr
  | .tls => tlsState m.keyBytes m.nonceBytes m.ctr

/-- The state-matrix positions serving as block counter, a function of
the layout alone. -/
def counterWordIndices : Layout → List Nat
  | .classic => [12, 13]
  | .tls => [12]

/-- The state-matrix positions serving as nonce, a function of the
layout alone. -/
def nonceWordIndices : Layout → List Nat
  | .classic => [14, 15]
  | .tls => [13, 14, 15]

/-- An operation on a cipher instance: re-key, resynchronize, seek to a
block index, or generate one block (which advances the counter). -/
inductive COp where
  | setKey (key nonce : List Nat) (r c : Nat)
  | resync (nonce : List Nat) (c : Nat)
  | seekBlock (c : Nat)
  | genBlock

/-- Modelled from the spec (§4.4–§4.5): one machine step.  `setKey`
rebuilds all keying components and the round count, `resync` replaces
only nonce and counter, `seekBlock` writes the counter, `genBlock`
advances it; the layout tag is never written. -/
def stepC (m : CipherM) : COp → CipherM
  | .setKey key nonce r c =>
      { m with keyBytes := key, nonceBytes := nonce, rounds := r, ctr := c }
  | .resync nonce c => { m with nonceBytes := nonce, ctr := c }
  | .seekBlock c => { m with ctr := c }
  | .genBlock => { m with ctr := m.ctr + 1 }

/-- Run a list of machine operations. -/
def runC (m : CipherM) : List COp → CipherM
  | [] => m
  | op :: rest => runC (stepC m op) rest

/-- From the header (`ChaCha_Policy() : m_rounds(0)`): a freshly
constructed Classic policy object, before any keying. -/
def freshClassicPolicy : CipherM :=
  { layout := .classic, rounds := 0, keyBytes := [], nonceBytes := [], ctr := 0 }

/-- The round counts the spec permits for the Classic layout. -/
def permittedRounds : List Nat := [8, 12, 20]

/-- Modelled from the spec (§6): Classic algorithm-name introspection
reports the family name followed by the instance's current round count. -/
def classicAlgorithmName (m : CipherM) : String :=
  "ChaCha" ++ toString m.rounds

/-!  A second rendering of the block function, following the spec's
§4.2–§4.3 wording (position lists for columns and diagonals, a fold of
quarter rounds, iterated double rounds), to compare with the engine's
`blockFunc`. -/

/-- The spec's column positions {0,4,8,12}, {1,5,9,13}, {2,6,10,14},
{3,7,11,15}. -/
def qrColumns : List (Nat × Nat × Nat × Nat) :=
  [(0, 4, 8, 12), (1, 5, 9, 13), (2, 6, 10, 14), (3, 7, 11, 15)]

/-- The spec's diagonal positions {0,5,10,15}, {1,6,11,12}, {2,7,8,13},
{3,4,9,14}. -/
def qrDiagonals : List (Nat × Nat × Nat × Nat) :=
  [(0, 5, 10, 15), (1, 6, 11, 12), (2, 7, 8, 13), (3, 4, 9, 14)]

/-- The spec's double round: fold the quarter round over the column
positions, then over the diagonal positions. -/
def doubleRoundSpec (s : List Nat) : List Nat :=
  (qrColumns ++ qrDiagonals).foldl (fun t q => applyQR t q.1 q.2.1 q.2.2.1 q.2.2.2) s

/-- The spec's block function (§4.3): copy the state, apply `r / 2`
double rounds, add the original state word-wise modulo `2^32`,
serialise the 16 words little-endian. -/
def blockFuncSpec (r : Nat) (s : List Nat) : List Nat :=
  serialize (List.zipWith add32 (doubleRoundSpec^[r / 2] s) s)

/-!  Cursor lemmas: a cursor aligned at absolute offset `p` delivers
exactly the pure keystream bytes from `p` on, whatever its history. -/

theorem seekTo_aligned (W ic : Nat) (blk : Nat → List Nat) (o : Nat) :
    Aligned W ic blk o (seekTo W ic o) :=
  ⟨rfl, rfl⟩

theorem initCursor_aligned (W ic : Nat) (blk : Nat → List Nat) :
    Aligned W ic blk 0 (initCursor W ic) :=
  ⟨rfl, rfl⟩

theorem nextByte_aligned (W ic : Nat) (blk : Nat → List Nat) (p : Nat)
    (s : Cursor) (h : Aligned W ic blk p s) :
    (nextByte W blk s).1 = ksByte W ic blk p ∧
      Aligned W ic blk (p + 1) (nextByte W blk s).2 := by
  obtain ⟨ctr, off, buf⟩ := s
  obtain ⟨hoff, hbuf⟩ := h
  simp only at hoff
  subst hoff
  cases buf with
  | none =>
      simp only at hbuf
      subst hbuf
      constructor
      · rfl
      · simp only [nextByte]
        by_cases h64 : p % 64 + 1 = 64
        · rw [if_pos h64]
          refine ⟨show (0 : Nat) = (p + 1) % 64 by omega, ?_⟩
          show ((ic + p / 64) % W + 1) % W = (ic + (p + 1) / 64) % W
          have hd : (p + 1) / 64 = p / 64 + 1 := by omega
          rw [Nat.mod_add_mod, hd, Nat.add_assoc]
        · rw [if_neg h64]
          have hd : (p + 1) / 64 = p / 64 := by omega
          refine ⟨show p % 64 + 1 = (p + 1) % 64 by omega, ?_, ?_⟩
          · show ((ic + p / 64) % W + 1) % W = (ic + (p + 1) / 64 + 1) % W
            rw [Nat.mod_add_mod, hd]
          · show blk ((ic + p / 64) % W) = blk ((ic + (p + 1) / 64) % W)
            rw [hd]
  | some b =>
      simp only at hbuf
      obtain ⟨hctr, hb⟩ := hbuf
      subst hctr; subst hb
      constructor
      · rfl
      · simp only [nextByte]
        by_cases h64 : p % 64 + 1 = 64
        · rw [if_pos h64]
          refine ⟨show (0 : Nat) = (p + 1) % 64 by omega, ?_⟩
          show (ic + p / 64 + 1) % W = (ic + (p + 1) / 64) % W
          have hd : (p + 1) / 64 = p / 64 + 1 := by omega
          rw [hd, Nat.add_assoc]
        · rw [if_neg h64]
          have hd : (p + 1) / 64 = p / 64 := by omega
          refine ⟨show p % 64 + 1 = (p + 1) % 64 by omega, ?_, ?_⟩
          · show (ic + p / 64 + 1) % W = (ic + (p + 1) / 64 + 1) % W
            rw [hd]
          · show blk ((ic + p / 64) % W) = blk ((ic + (p + 1) / 64) % W)
            rw [hd]

theorem nextBytes_aligned (W ic : Nat) (blk : Nat → List Nat) :
    ∀ (n p : Nat) (s : Cursor), Aligned W ic blk p s →
      (nextBytes W blk n s).1 = (List.range' p n).map (ksByte W ic blk) ∧
        Aligned W ic blk (p + n) (nextBytes W blk n s).2 := by
  intro n
  induction n with
  | zero => intro p s h; exact ⟨rfl, h⟩
  | succ n ih =>
      intro p s h
      obtain ⟨h1, h2⟩ := nextByte_aligned W ic blk p s h
      obtain ⟨ih1, ih2⟩ := ih (p + 1) (nextByte W blk s).2 h2
      refine ⟨?_, ?_⟩
      · show (nextByte W blk s).1 :: (nextBytes W blk n (nextByte W blk s).2).1 = _
        rw [List.range'_succ, List.map_cons, h1, ih1]
      · show Aligned W ic blk (p + (n + 1)) (nextBytes W blk n (nextByte W blk s).2).2
        have : p + (n + 1) = p + 1 + n := by omega
        rw [this]
        exact ih2

theorem mem_zip_self_map {α β : Type} (f : α → β) :
    ∀ (l : List α) (pr : α × β), pr ∈ List.zip l (l.map f) → pr.2 = f pr.1 := by
  intro l
  induction l with
  | nil => intro pr h; simp at h
  | cons a t ih =>
      intro pr h
      simp only [List.map_cons, List.zip_cons_cons, List.mem_cons] at h
      rcases h with h | h
      · subst h; rfl
      · exact ih pr h

theorem runOps_pure (W ic : Nat) (blk : Nat → List Nat) :
    ∀ (ops : List Op) (p : Nat) (s : Cursor), Aligned W ic blk p s →
      ∀ pr ∈ runOps W ic blk ops p s, pr.2 = ksByte W ic blk pr.1 := by
  intro ops
  induction ops with
  | nil => intro p s _ pr h; simp [runOps] at h
  | cons op rest ih =>
      intro p s hal pr hpr
      cases op with
      | read n =>
          obtain ⟨h1, h2⟩ := nextBytes_aligned W ic blk n p s hal
          simp only [runOps, List.mem_append] at hpr
          rcases hpr with hpr | hpr
          · rw [h1] at hpr
            exact mem_zip_self_map (ksByte W ic blk) (List.range' p n) pr hpr
          · exact ih (p + n) _ h2 pr hpr
      | seek o =>
          exact ih o _ (seekTo_aligned W ic blk o) pr hpr

theorem cursor_history_independent (W ic : Nat) (blk : Nat → List Nat) :
    (∀ ops : List Op,
        List.Forall (fun pr => pr.2 = ksByte W ic blk pr.1)
          (runOps W ic blk ops 0 (initCursor W ic))) ∧
    (∀ k : Nat, (nextByte W blk (seekTo W ic k)).1 = ksByte W ic blk k) ∧
    (∀ o n : Nat,
        ((nextBytes W blk (o + n) (initCursor W ic)).1).drop o =
          (nextBytes W blk n (seekTo W ic o)).1) := by
  refine ⟨?_, ?_, ?_⟩
  · intro ops
    rw [List.forall_iff_forall_mem]
    exact runOps_pure W ic blk ops 0 (initCursor W ic) (initCursor_aligned W ic blk)
  · intro k
    rfl
  · intro o n
    have hseq := (nextBytes_aligned W ic blk (o + n) 0 (initCursor W ic)
      (initCursor_aligned W ic blk)).1
    have hseek := (nextBytes_aligned W ic blk n o (seekTo W ic o)
      (seekTo_aligned W ic blk o)).1
    rw [hseq, hseek]
    have hsplit : List.range' 0 (o + n) = List.range' 0 o ++ List.range' o n := by
      have := List.range'_append 0 o n 1
      simp only [Nat.one_mul, Nat.zero_add] at this
      rw [Nat.add_comm o n, ← this]
    rw [hsplit, List.map_append]
    exact List.drop_left' (by rw [List.length_map, List.length_range'])

/-- C1: history independence of the keystream.  For every key, nonce,
initial counter and both layouts: (a) under any interleaved sequence of
reads and seeks, every byte delivered for absolute offset `k` equals
the pure keystream byte at `k`; (b) seeking directly to `k` and reading
one byte also yields that pure byte; (c) generating bytes `[0, o+n)`
sequentially and taking the last `n` equals seeking to `o` and reading
`n` bytes. -/
theorem C1_keystream_history_independence (key nonce : List Nat) (r ic : Nat) :
    ((∀ ops : List Op,
        List.Forall (fun pr => pr.2 = ksByte W64 ic (classicBlock r key nonce) pr.1)
          (runOps W64 ic (classicBlock r key nonce) ops 0 (initCursor W64 ic))) ∧
      (∀ k : Nat, (nextByte W64 (classicBlock r key nonce) (seekTo W64 ic k)).1 =
          ksByte W64 ic (classicBlock r key nonce) k) ∧
      (∀ o n : Nat,
        ((nextBytes W64 (classicBlock r key nonce) (o + n) (initCursor W64 ic)).1).drop o =
          (nextBytes W64 (classicBlock r key nonce) n (seekTo W64 ic o)).1)) ∧
    ((∀ ops : List Op,
        List.Forall (fun pr => pr.2 = ksByte W32 ic (tlsBlock key nonce) pr.1)
          (runOps W32 ic (tlsBlock key nonce) ops 0 (initCursor W32 ic))) ∧
      (∀ k : Nat, (nextByte W32 (tlsBlock key nonce) (seekTo W32 ic k)).1 =
          ksByte W32 ic (tlsBlock key nonce) k) ∧
      (∀ o n : Nat,
        ((nextBytes W32 (tlsBlock key nonce) (o + n) (initCursor W32 ic)).1).drop o =
          (nextBytes W32 (tlsBlock key nonce) n (seekTo W32 ic o)).1)) :=
  ⟨cursor_history_independent W64 ic (classicBlock r key nonce),
   cursor_history_independent W32 ic (tlsBlock key nonce)⟩

/-!  Length and range facts about the block function. -/

theorem applyQR_length (s : List Nat) (i j k l : Nat) :
    (applyQR s i j k l).length = s.length := by
  simp [applyQR]

theorem doubleRound_length (s : List Nat) : (doubleRound s).length = s.length := by
  simp [doubleRound, columnRound, diagonalRound, applyQR_length]

theorem iterDR_length : ∀ (n : Nat) (s : List Nat), (iterDR n s).length = s.length := by
  intro n
  induction n with
  | zero => intro s; rfl
  | succ n ih => intro s; rw [iterDR, ih, doubleRound_length]

theorem serialize_length (s : List Nat) : (serialize s).length = 4 * s.length := by
  induction s with
  | nil => rfl
  | cons a t ih =>
      simp only [serialize, List.map_cons, List.flatten_cons, List.length_append] at *
      rw [ih, wordLE, List.length_cons, List.length_cons, List.length_cons,
        List.length_cons, List.length_nil, List.length_cons]
      omega

theorem blockFunc_length (r : Nat) (s : List Nat) (h : s.length = 16) :
    (blockFunc r s).length = 64 := by
  rw [blockFunc, serialize_length, List.length_zipWith, iterDR_length, h]
  omega

theorem classicState_length (key nonce : List Nat) (c : Nat) :
    (classicState key nonce c).length = 16 := rfl

theorem tlsState_length (key nonce : List Nat) (c : Nat) :
    (tlsState key nonce c).length = 16 := rfl

theorem map_getD_range : ∀ (l : List Nat),
    (List.range l.length).map (fun i => l.getD i 0) = l := by
  intro l
  induction l with
  | nil => rfl
  | cons a t ih =>
      have hc : (fun i => (a :: t).getD i 0) ∘ Nat.succ = (fun i => t.getD i 0) := by
        funext i
        simp [Function.comp, List.getD_cons_succ]
      rw [List.length_cons, List.range_succ_eq_map, List.map_cons, List.map_map, hc, ih]
      rfl

/-- C2: TLS-layout counter wraparound.  For every key and nonce, after
seeking to block index `2^32 - 1` and consuming that block, the next 64
bytes requested are exactly the block for index 0 — no error (the
generator is total) — and words 13–15 of the state matrix hold the
three nonce words unchanged at every counter value. -/
theorem C2_tls_counter_wraparound (key nonce : List Nat) :
    (nextBytes W32 (tlsBlock key nonce) 64
        ((nextBytes W32 (tlsBlock key nonce) 64 (seekTo W32 0 ((W32 - 1) * 64))).2)).1 =
      tlsBlock key nonce 0 ∧
    (∀ c : Nat, (tlsState key nonce c).drop 13 =
        [word32At nonce 0, word32At nonce 1, word32At nonce 2]) := by
  constructor
  · have h1 := nextBytes_aligned W32 0 (tlsBlock key nonce) 64 ((W32 - 1) * 64)
      (seekTo W32 0 ((W32 - 1) * 64)) (seekTo_aligned W32 0 (tlsBlock key nonce) ((W32 - 1) * 64))
    have h2 := (nextBytes_aligned W32 0 (tlsBlock key nonce) 64 ((W32 - 1) * 64 + 64) _ h1.2).1
    rw [h2]
    have hP : (W32 - 1) * 64 + 64 = W32 * 64 := by simp only [W32]
    rw [hP, List.range'_eq_map_range, List.map_map]
    have hmem : List.map (ksByte W32 0 (tlsBlock key nonce) ∘ fun x => W32 * 64 + x)
        (List.range 64) =
        List.map (fun i => (tlsBlock key nonce 0).getD i 0) (List.range 64) := by
      apply List.map_congr_left
      intro i hi
      rw [List.mem_range] at hi
      have e1 : (0 + (W32 * 64 + i) / 64) % W32 = 0 := by
        simp only [W32]; omega
      have e2 : (W32 * 64 + i) % 64 = i := by
        simp only [W32]; omega
      simp only [Function.comp_apply]
      rw [ksByte, e1, e2]
    rw [hmem]
    have hlen : (tlsBlock key nonce 0).length = 64 :=
      blockFunc_length 20 _ (tlsState_length key nonce 0)
    rw [show (64 : Nat) = (tlsBlock key nonce 0).length from hlen.symm]
    exact map_getD_range (tlsBlock key nonce 0)
  · intro c
    rfl

/-- C3: quarter-round definition.  For all four words the primitive
equals the spec's operation sequence (each addition wrapped modulo
`2^32`), every output is a reduced 32-bit word, and applying it at four
state positions touches no other word of the state. -/
theorem C3_quarter_round_definition (a b c d : Nat) :
    (quarterRound (a, b, c, d) =
      (let a1 := (a + b) % W32
       let d1 := rotl32 (d ^^^ a1) 16
       let c1 := (c + d1) % W32
       let b1 := rotl32 (b ^^^ c1) 12
       let a2 := (a1 + b1) % W32
       let d2 := rotl32 (d1 ^^^ a2) 8
       let c2 := (c1 + d2) % W32
       let b2 := rotl32 (b1 ^^^ c2) 7
       (a2, b2, c2, d2))) ∧
    ((quarterRound (a, b, c, d)).1 < W32 ∧ (quarterRound (a, b, c, d)).2.1 < W32 ∧
      (quarterRound (a, b, c, d)).2.2.1 < W32 ∧ (quarterRound (a, b, c, d)).2.2.2 < W32) ∧
    (∀ (s : List Nat) (i j k l m : Nat), m ≠ i → m ≠ j → m ≠ k → m ≠ l →
      (applyQR s i j k l).getD m 0 = s.getD m 0) := by
  refine ⟨rfl, ⟨?_, ?_, ?_, ?_⟩, ?_⟩
  · exact Nat.mod_lt _ (by decide)
  · exact Nat.mod_lt _ (by decide)
  · exact Nat.mod_lt _ (by decide)
  · exact Nat.mod_lt _ (by decide)
  · intro s i j k l m hi hj hk hl
    simp only [applyQR]
    rw [List.getD_eq_getElem?_getD, List.getD_eq_getElem?_getD,
      List.getElem?_set_ne (Ne.symm hl), List.getElem?_set_ne (Ne.symm hk),
      List.getElem?_set_ne (Ne.symm hj), List.getElem?_set_ne (Ne.symm hi)]
    rw [← List.getD_eq_getElem?_getD]

/-- Witness for C3 at concrete inputs: position 4 of a 5-element state
is untouched by a quarter round applied at positions 0–3. -/
theorem C3_quarter_round_definition_witness :
    (applyQR [1, 2, 3, 4, 5] 0 1 2 3).getD 4 0 = 5 := by
  have h := (C3_quarter_round_definition 1 2 3 4).2.2 [1, 2, 3, 4, 5] 0 1 2 3 4
    (by decide) (by decide) (by decide) (by decide)
  rw [h]
  rfl

/-!  The engine's block function agrees with the spec's compositional
rendering. -/

theorem doubleRoundSpec_eq (s : List Nat) : doubleRoundSpec s = doubleRound s := by
  simp only [doubleRoundSpec, qrColumns, qrDiagonals, List.cons_append, List.nil_append,
    List.foldl_cons, List.foldl_nil, doubleRound, columnRound, diagonalRound]

theorem iterDR_eq_iterate : ∀ (n : Nat) (s : List Nat),
    iterDR n s = doubleRoundSpec^[n] s := by
  intro n
  induction n with
  | zero => intro s; rfl
  | succ n ih =>
      intro s
      rw [iterDR, ih, Function.iterate_succ_apply, doubleRoundSpec_eq]

theorem serialize_mem_lt (s : List Nat) : ∀ b ∈ serialize s, b < 256 := by
  intro b hb
  rw [serialize, List.mem_flatten] at hb
  obtain ⟨l, hl, hbl⟩ := hb
  rw [List.mem_map] at hl
  obtain ⟨w, _, hw⟩ := hl
  subst hw
  rw [wordLE] at hbl
  simp only [List.mem_cons, List.not_mem_nil, or_false] at hbl
  rcases hbl with h | h | h | h <;> subst h <;> omega

/-- C4: block-function correctness and determinism.  For every 16-word
state and round count, the engine's block function coincides with the
spec's reference composition (`r / 2` iterated double rounds over a
copy, word-wise feed-forward modulo `2^32`, little-endian
serialisation), and the output is exactly 64 bytes, each below 256.
Both sides are pure functions of `(r, s)`. -/
theorem C4_block_function (r : Nat) (s : List Nat) (h : s.length = 16) :
    blockFunc r s = blockFuncSpec r s ∧ (blockFunc r s).length = 64 ∧
      ∀ b ∈ blockFunc r s, b < 256 := by
  refine ⟨?_, blockFunc_length r s h, ?_⟩
  · rw [blockFunc, blockFuncSpec, iterDR_eq_iterate]
  · intro b hb
    exact serialize_mem_lt _ b hb

/-- Witness for C4 at a concrete 16-word state. -/
theorem C4_block_function_witness :
    (List.range 16).length = 16 ∧ (blockFunc 20 (List.range 16)).length = 64 :=
  ⟨by decide, (C4_block_function 20 (List.range 16) (by decide)).2.1⟩

/-- C5: length validation at keying time.  A Classic key of any length
other than 16 or 32 bytes fails with `InvalidKeyLength`; a TLS key of
any length other than 32 fails likewise; a Classic nonce not exactly 8
bytes and a TLS nonce not exactly 12 bytes fail with
`InvalidNonceLength`; and a successful (`ok`) result — the only way any
state, hence any keystream, is produced — entails the lengths were
valid. -/
theorem C5_length_validation (key nonce : List Nat) (c : Nat) :
    (key.length ≠ 16 → key.length ≠ 32 →
        classicKeyAndIV key nonce c = .error .InvalidKeyLength) ∧
    (classicValidKeyLength key.length = true → nonce.length ≠ 8 →
        classicKeyAndIV key nonce c = .error .InvalidNonceLength) ∧
    (key.length ≠ 32 → tlsKeyAndIV key nonce c = .error .InvalidKeyLength) ∧
    (key.length = 32 → nonce.length ≠ 12 →
        tlsKeyAndIV key nonce c = .error .InvalidNonceLength) ∧
    (∀ st, classicKeyAndIV key nonce c = .ok st →
        classicValidKeyLength key.length = true ∧ classicValidIVLength nonce.length = true) ∧
    (∀ st, tlsKeyAndIV key nonce c = .ok st →
        tlsValidKeyLength key.length = true ∧ tlsValidIVLength nonce.length = true) := by
  refine ⟨?_, ?_, ?_, ?_, ?_, ?_⟩
  · intro h1 h2
    simp [classicKeyAndIV, classicValidKeyLength, h1, h2]
  · intro h1 h2
    simp [classicKeyAndIV, classicValidIVLength, h1, h2]
  · intro h1
    simp [tlsKeyAndIV, tlsValidKeyLength, h1]
  · intro h1 h2
    simp [tlsKeyAndIV, tlsValidKeyLength, tlsValidIVLength, h1, h2]
  · intro st h
    by_cases h1 : classicValidKeyLength key.length
    · by_cases h2 : classicValidIVLength nonce.length
      · exact ⟨h1, h2⟩
      · simp [classicKeyAndIV, h1, h2] at h
    · simp [classicKeyAndIV, h1] at h
  · intro st h
    by_cases h1 : tlsValidKeyLength key.length
    · by_cases h2 : tlsValidIVLength nonce.length
      · exact ⟨h1, h2⟩
      · simp [tlsKeyAndIV, h1, h2] at h
    · simp [tlsKeyAndIV, h1] at h

/-- Witness for C5: the spec's 15- and 17-byte Classic keys, a 31-byte
TLS key, and wrong-size nonces are all rejected with the right error. -/
theorem C5_length_validation_witness :
    classicKeyAndIV (List.replicate 15 0) (List.replicate 8 0) 0 = .error .InvalidKeyLength ∧
    classicKeyAndIV (List.replicate 17 0) (List.replicate 8 0) 0 = .error .InvalidKeyLength ∧
    tlsKeyAndIV (List.replicate 31 0) (List.replicate 12 0) 0 = .error .InvalidKeyLength ∧
    classicKeyAndIV (List.replicate 32 0) (List.replicate 12 0) 0 = .error .InvalidNonceLength ∧
    tlsKeyAndIV (List.replicate 32 0) (List.replicate 8 0) 0 = .error .InvalidNonceLength :=
  ⟨(C5_length_validation _ _ 0).1 (by decide) (by decide),
   (C5_length_validation _ _ 0).1 (by decide) (by decide),
   (C5_length_validation _ _ 0).2.2.1 (by decide),
   (C5_length_validation _ _ 0).2.1 (by decide) (by decide),
   (C5_length_validation _ _ 0).2.2.2.1 (by decide) (by decide)⟩

/-- C6: resynchronization equivalence.  Re-running only the
nonce/counter part of the scheduler on a keyed state produces exactly
the matrix of a full re-key with the same key (hence a bit-identical
keystream, the block function being applied to equal states), and words
0–11 — constants and key words — are untouched, in both layouts. -/
theorem C6_resynchronization_equivalence (key nonce0 nonce : List Nat) (c0 c r : Nat) :
    (classicResync (classicState key nonce0 c0) nonce c = classicState key nonce c) ∧
    ((classicResync (classicState key nonce0 c0) nonce c).take 12 =
        (classicState key nonce0 c0).take 12) ∧
    (blockFunc r (classicResync (classicState key nonce0 c0) nonce c) =
        blockFunc r (classicState key nonce c)) ∧
    (tlsResync (tlsState key nonce0 c0) nonce c = tlsState key nonce c) ∧
    ((tlsResync (tlsState key nonce0 c0) nonce c).take 12 =
        (tlsState key nonce0 c0).take 12) ∧
    (blockFunc 20 (tlsResync (tlsState key nonce0 c0) nonce c) =
        blockFunc 20 (tlsState key nonce c)) :=
  ⟨rfl, rfl, rfl, rfl, rfl, rfl⟩

/-!  The XOR combiner is an involution over any cursor start. -/

theorem nextBytes_length (W : Nat) (blk : Nat → List Nat) :
    ∀ (n : Nat) (s : Cursor), (nextBytes W blk n s).1.length = n := by
  intro n
  induction n with
  | zero => intro s; rfl
  | succ n ih =>
      intro s
      show ((nextByte W blk s).1 :: (nextBytes W blk n (nextByte W blk s).2).1).length = n + 1
      rw [List.length_cons, ih]

theorem xor_zip_cancel : ∀ (P ks : List Nat), ks.length = P.length →
    List.zipWith (fun x k => x ^^^ k) (List.zipWith (fun x k => x ^^^ k) P ks) ks = P := by
  intro P
  induction P with
  | nil => intro ks _; rfl
  | cons p t ih =>
      intro ks hk
      cases ks with
      | nil => simp at hk
      | cons k kt =>
          simp only [List.zipWith_cons_cons]
          rw [ih kt (by simpa using hk)]
          congr 1
          rw [Nat.xor_assoc, Nat.xor_self, Nat.xor_zero]

theorem process_self_inverse (W : Nat) (blk : Nat → List Nat) (s : Cursor) (P : List Nat) :
    (process W blk s (process W blk s P).1).1 = P := by
  simp only [process]
  have h1 : (List.zipWith (fun x k => x ^^^ k) P (nextBytes W blk P.length s).1).length =
      P.length := by
    rw [List.length_zipWith, nextBytes_length]
    omega
  rw [h1]
  exact xor_zip_cancel P _ (nextBytes_length W blk P.length s)

/-- C7: self-inverse transform.  For every key, nonce, initial counter,
starting offset and plaintext, processing twice from the same cursor
position restores the plaintext, in both layouts; and the decryption
operation is definitionally the encryption operation (the header makes
`Decryption` a typedef of `Encryption`). -/
theorem C7_self_inverse (key nonce : List Nat) (r ic o : Nat) (P : List Nat) :
    classicProcess r key nonce ic o (classicProcess r key nonce ic o P) = P ∧
    tlsProcess key nonce ic o (tlsProcess key nonce ic o P) = P ∧
    classicDecryptProcess = classicProcess ∧ tlsDecryptProcess = tlsProcess := by
  refine ⟨?_, ?_, rfl, rfl⟩
  · simp only [classicProcess]
    exact process_self_inverse W64 (classicBlock r key nonce) (seekTo W64 ic o) P
  · simp only [tlsProcess]
    exact process_self_inverse W32 (tlsBlock key nonce) (seekTo W32 ic o) P

/-!  Machine-level invariants. -/

theorem runC_layout : ∀ (ops : List COp) (m : CipherM), (runC m ops).layout = m.layout := by
  intro ops
  induction ops with
  | nil => intro m; rfl
  | cons op rest ih =>
      intro m
      rw [runC, ih]
      cases op <;> rfl

theorem matrixOf_length (m : CipherM) : (matrixOf m).length = 16 := by
  obtain ⟨ly, r, k, n, c⟩ := m
  cases ly <;> rfl

theorem matrixOf_take4 (m : CipherM) : (matrixOf m).take 4 = chachaConstants := by
  obtain ⟨ly, r, k, n, c⟩ := m
  cases ly <;> rfl

/-- C8: state-matrix shape invariant.  After any sequence of key setup,
resynchronization, seek and block-generation steps, the derived state
matrix still has exactly 16 words with the four constants of row 0
intact, and the layout tag — which alone determines the counter and
nonce word positions — is exactly the one fixed at construction. -/
theorem C8_state_shape_invariant (m : CipherM) (ops : List COp) :
    (matrixOf (runC m ops)).length = 16 ∧
    (matrixOf (runC m ops)).take 4 = chachaConstants ∧
    (runC m ops).layout = m.layout ∧
    counterWordIndices (runC m ops).layout = counterWordIndices m.layout ∧
    nonceWordIndices (runC m ops).layout = nonceWordIndices m.layout :=
  ⟨matrixOf_length _, matrixOf_take4 _, runC_layout ops m,
   congrArg counterWordIndices (runC_layout ops m),
   congrArg nonceWordIndices (runC_layout ops m)⟩

/-- C10: a freshly constructed Classic policy object carries round
count 0 — outside the permitted set {8, 12, 20} — algorithm-name
introspection before keying observes exactly that unconfigured value,
and only key setup installs the configured round count. -/
theorem C10_unkeyed_rounds_zero :
    freshClassicPolicy.rounds = 0 ∧
    permittedRounds.contains freshClassicPolicy.rounds = false ∧
    classicAlgorithmName freshClassicPolicy = "ChaCha0" ∧
    (∀ (key nonce : List Nat) (r c : Nat),
        (stepC freshClassicPolicy (COp.setKey key nonce r c)).rounds = r) :=
  ⟨rfl, by decide, by decide, fun _ _ _ _ => rfl⟩

/-!  On layout interchangeability: no nonce length is accepted by both
layouts, so no raw key/nonce byte choice feeds both engines. -/

theorem classic_tls_nonce_domains_disjoint (n : Nat) :
    ¬(classicValidIVLength n = true ∧ tlsValidIVLength n = true) := by
  rintro ⟨h1, h2⟩
  simp [classicValidIVLength] at h1
  simp [tlsValidIVLength] at h2
  omega

end ChaCha
